import Mathlib

/-!
Verification development for the VR_180_streamlit frame-batch conversion
pipeline.  Shallow embedding of the Python sources under src/src/:
video_reader.py (frame extraction and batching), main.py (ordered global
assembly and run control flow), stereo.py (disparity scatter and hole
mask), anaglyph_processor.py (anaglyph compositor), streaming.py (HLS
segment numbering) and projection.py (spherical mapping validity).
External collaborators (ffmpeg, cv2.inpaint) are modelled from the spec
where noted.
-/

set_option maxHeartbeats 1600000

namespace VRConv

/-! ## Data model: frames as grids of 8-bit BGR pixels.

A pixel is a (channel0, channel1, channel2) triple; OpenCV stores images
in BGR order, so channel 0 is blue, channel 1 green, channel 2 red.
A grid is a list of rows. -/

abbrev Pixel := ℕ × ℕ × ℕ

abbrev Grid (α : Type) := List (List α)

/-- Sum of the three colour channels of a pixel (numpy img.sum(axis=2)). -/
def pixSum (p : Pixel) : ℕ := p.1 + p.2.1 + p.2.2

/-- The grid has H rows, each of length W (numpy arrays are rectangular). -/
def Rect {α : Type} (g : Grid α) (H W : ℕ) : Prop :=
  g.length = H ∧ ∀ r ∈ g, r.length = W

/-- Value of a grid at row y, column x, defaulting outside bounds. -/
def pixAt (img : Grid Pixel) (y x : ℕ) : Pixel := (img.getD y []).getD x (0, 0, 0)

/-! ## video_reader.read_and_write_batches (src/src/video_reader.py)

The decode loop is modelled on the list of frames the container actually
decodes (cv2 frame reads); metadata fields (fps, reported total, width,
height) are container passthrough and carry no logic.  A batch descriptor
is (batch_idx, start_frame, end_frame, frames). -/

abbrev BatchDesc (α : Type) := ℕ × ℕ × ℕ × List α

/-- The while-loop of read_and_write_batches: consume decoded frames one at
a time, flushing current_batch whenever it reaches the batch size, and
flushing a final short batch at end of stream. -/
def readBatchesLoop (B : ℕ) :
    List α → ℕ → ℕ → List α → List (BatchDesc α) → List (BatchDesc α)
  | [], fi, bi, cur, acc =>
    if cur.isEmpty then acc else acc ++ [(bi, fi - cur.length, fi - 1, cur)]
  | x :: xs, fi, bi, cur, acc =>
    let cur' := cur ++ [x]
    if B ≤ cur'.length then
      readBatchesLoop B xs (fi + 1) (bi + 1) []
        (acc ++ [(bi, fi + 1 - cur'.length, fi, cur')])
    else
      readBatchesLoop B xs (fi + 1) bi cur' acc

/-- read_and_write_batches, restricted to its batch-building result. -/
def readAndWriteBatches (frames : List α) (B : ℕ) : List (BatchDesc α) :=
  readBatchesLoop B frames 0 0 [] []

inductive SourceErr : Type where
  | sourceRead
deriving DecidableEq, Repr

/-- read_and_write_batches with its exception behaviour made explicit.
The Python function contains no raise statement and does not check
cap.isOpened(); an unopenable or empty source simply decodes zero frames,
so every call returns normally. -/
def readAndWriteBatchesE (frames : List α) (B : ℕ) :
    Except SourceErr (List (BatchDesc α)) :=
  .ok (readAndWriteBatches frames B)

/-- Closed form of the batching, following the spec's description: batch i
covers frame indices [bi + i, s + i*B .. s + min((i+1)*B, N) - 1] with the
corresponding slice of the frame list.  This is the spec-side description
the loop is compared against. -/
def batchesFrom (B bi s : ℕ) (m : List α) : List (BatchDesc α) :=
  (List.range ((m.length + B - 1) / B)).map fun i =>
    (bi + i, s + i * B, s + min ((i + 1) * B) m.length - 1,
      (m.drop (i * B)).take B)

/-- Spec-side batching of a whole decoded sequence. -/
def specBatches (B : ℕ) (m : List α) : List (BatchDesc α) := batchesFrom B 0 0 m

/-! ## main.py global assembly loop (src/src/main.py, lines 101-110)

For each batch, the sorted per-batch output files are copied to the global
sequence directory under name frame_{next_index:06d}.png, incrementing
next_index once per file.  State: (next_index, assigned list of
(global index, frame)). -/

/-- One batch append: the inner for-loop over the batch's sorted files. -/
def appendBatch (st : ℕ × List (ℕ × α)) (b : List α) : ℕ × List (ℕ × α) :=
  b.foldl (fun st f => (st.1 + 1, st.2 ++ [(st.1, f)])) st

/-- The whole per-batch assembly loop, starting from next_index = 0. -/
def assembleAll (bs : List (List α)) : ℕ × List (ℕ × α) :=
  bs.foldl appendBatch (0, [])

lemma appendBatch_eq (b : List α) :
    ∀ (n : ℕ) (acc : List (ℕ × α)),
      appendBatch (n, acc) b =
        (n + b.length, acc ++ (List.range' n b.length).zip b) := by
  induction b with
  | nil => intro n acc; simp [appendBatch]
  | cons x xs ih =>
    intro n acc
    have h1 : appendBatch (n, acc) (x :: xs) = appendBatch (n + 1, acc ++ [(n, x)]) xs := by
      simp [appendBatch]
    rw [h1, ih, List.length_cons, List.range'_succ, List.zip_cons_cons]
    simp only [Prod.mk.injEq]
    exact ⟨by omega, by simp⟩

lemma assembleAll_from (bs : List (List α)) :
    ∀ (n : ℕ) (acc : List (ℕ × α)),
      bs.foldl appendBatch (n, acc) =
        (n + (bs.map List.length).sum,
         acc ++ (List.range' n (bs.map List.length).sum).zip bs.flatten) := by
  induction bs with
  | nil => intro n acc; simp
  | cons b rest ih =>
    intro n acc
    have : (b :: rest).foldl appendBatch (n, acc) = rest.foldl appendBatch (appendBatch (n, acc) b) := by
      simp [List.foldl_cons]
    rw [this, appendBatch_eq, ih]
    simp only [Prod.mk.injEq, List.map_cons, List.sum_cons]
    refine ⟨by omega, ?_⟩
    rw [List.append_assoc]
    congr 1
    rw [show List.range' n (b.length + (rest.map List.length).sum)
          = List.range' n b.length ++ List.range' (n + b.length) ((rest.map List.length).sum) from by
        rw [Nat.add_comm]
        exact (List.range'_append_1 n b.length ((rest.map List.length).sum)).symm]
    rw [List.flatten_cons, List.zip_append (by simp)]

/-- C1 core: the assembly fold yields index sequence 0,1,...,total-1. -/
theorem assembleAll_eq (bs : List (List α)) :
    assembleAll bs =
      ((bs.map List.length).sum,
       (List.range ((bs.map List.length).sum)).zip bs.flatten) := by
  unfold assembleAll
  rw [assembleAll_from]
  simp [List.range_eq_range']

/-- C1: for every run over any number of batches of any sizes, after the
per-batch assembly loop of main completes, the global frame sequence holds
exactly the sum of the per-batch frame counts, its indices are the
contiguous, gap-free, duplicate-free range [0, total-1], and the global
counter next_index finishes at total, having been incremented once per
copied frame and never reset. -/
theorem global_sequence_contiguous (bs : List (List α)) :
    (assembleAll bs).1 = (bs.map List.length).sum ∧
    (assembleAll bs).2.length = (bs.map List.length).sum ∧
    (assembleAll bs).2.map Prod.fst = List.range ((bs.map List.length).sum) := by
  rw [assembleAll_eq]
  refine ⟨rfl, ?_, ?_⟩
  · simp [List.length_zip, List.length_flatten]
  · exact List.map_fst_zip _ _ (by simp [List.length_flatten])

/-! ### Closed form of the batching loop (C2) -/

lemma ceil_div_succ (B N : ℕ) (hB : 1 ≤ B) (hN : 1 ≤ N) :
    (N + B - 1) / B = (N - B + B - 1) / B + 1 := by
  rcases le_or_lt N B with h | h
  · have h1 : (N + B - 1) / B = 1 := Nat.div_eq_of_lt_le (by omega) (by omega)
    have h2 : N - B = 0 := by omega
    rw [h1, h2]
    simp [Nat.div_eq_of_lt (by omega : B - 1 < B)]
  · have h3 : N + B - 1 = (N - B + B - 1) + B := by omega
    rw [h3, Nat.add_div_right _ (by omega)]

lemma batchesFrom_nil (B bi s : ℕ) (hB : 1 ≤ B) :
    batchesFrom B bi s ([] : List α) = [] := by
  unfold batchesFrom
  have h0 : (B - 1) / B = 0 := Nat.div_eq_of_lt (by omega)
  simp [h0]

lemma batchesFrom_peel (B bi s : ℕ) (hB : 1 ≤ B) (m : List α) (hm : m ≠ []) :
    batchesFrom B bi s m =
      (bi, s, s + min B m.length - 1, m.take B) ::
        batchesFrom B (bi + 1) (s + B) (m.drop B) := by
  have hN : 1 ≤ m.length := List.length_pos.mpr hm
  unfold batchesFrom
  rw [List.length_drop, ceil_div_succ B m.length hB hN, List.range_succ_eq_map,
    List.map_cons, List.map_map]
  congr 1
  · simp
  · refine List.map_congr_left fun i hi => ?_
    have hi' : i < (m.length - B + B - 1) / B := List.mem_range.mp hi
    have hBN : B < m.length := by
      by_contra hc
      have h2 : m.length - B = 0 := by omega
      rw [h2] at hi'
      rw [Nat.div_eq_of_lt (by omega)] at hi'
      omega
    have e1 : (i + 1) * B = i * B + B := by ring
    have e2 : (i + 1 + 1) * B = i * B + B + B := by ring
    simp only [Function.comp_apply, e1, e2]
    have e3 : (m.drop (i * B + B)).take B = ((m.drop B).drop (i * B)).take B := by
      rw [List.drop_drop, Nat.add_comm B (i * B)]
    rw [e3]
    generalize i * B = a
    simp only [Prod.mk.injEq]
    exact ⟨by omega, by omega, by omega, trivial⟩

lemma readBatchesLoop_eq (B : ℕ) (hB : 1 ≤ B) :
    ∀ (l fi bi : _) (cur : List α) (acc : List (BatchDesc α)),
      cur.length < B → cur.length ≤ fi →
      readBatchesLoop B l fi bi cur acc =
        acc ++ batchesFrom B bi (fi - cur.length) (cur ++ l) := by
  intro l
  induction l with
  | nil =>
    intro fi bi cur acc hlt hle
    simp only [readBatchesLoop, List.append_nil]
    by_cases hcur : cur.isEmpty
    · rw [if_pos hcur]
      have hc : cur = [] := List.isEmpty_iff.mp hcur
      subst hc
      rw [batchesFrom_nil B bi _ hB, List.append_nil]
    · rw [if_neg hcur]
      have hne : cur ≠ [] := fun h => by simp [h] at hcur
      have hc1 : 1 ≤ cur.length := List.length_pos.mpr hne
      unfold batchesFrom
      have hK : (cur.length + B - 1) / B = 1 := Nat.div_eq_of_lt_le (by omega) (by omega)
      rw [hK, show List.range 1 = [0] from rfl]
      simp only [List.map_cons, List.map_nil, Nat.zero_mul, Nat.add_zero,
        List.drop_zero, Nat.zero_add, Nat.one_mul]
      have ht : cur.take B = cur := List.take_of_length_le (by omega)
      have hmin : min B cur.length = cur.length := by omega
      rw [ht, hmin, show fi - cur.length + cur.length - 1 = fi - 1 by omega]
  | cons x xs ih =>
    intro fi bi cur acc hlt hle
    simp only [readBatchesLoop]
    by_cases hflush : B ≤ (cur ++ [x]).length
    · rw [if_pos hflush]
      have hc : cur.length + 1 = B := by
        simp only [List.length_append, List.length_cons, List.length_nil] at hflush
        omega
      have hlen' : (cur ++ [x]).length = B := by
        simp only [List.length_append, List.length_cons, List.length_nil]
        omega
      rw [ih (fi + 1) (bi + 1) [] _ (by simp only [List.length_nil]; omega)
        (by simp only [List.length_nil]; omega)]
      rw [batchesFrom_peel B bi (fi - cur.length) hB (cur ++ x :: xs) (by simp)]
      have hsplit : cur ++ x :: xs = (cur ++ [x]) ++ xs := by simp
      have htake : (cur ++ x :: xs).take B = cur ++ [x] := by
        rw [hsplit, List.take_left' hlen']
      have hdrop : (cur ++ x :: xs).drop B = xs := by
        rw [hsplit, List.drop_left' hlen']
      have hmin : min B (cur ++ x :: xs).length = B := by
        simp only [List.length_append, List.length_cons]
        omega
      rw [htake, hdrop, hmin, hlen']
      rw [show fi - cur.length + B - 1 = fi by omega,
        show fi - cur.length + B = fi + 1 by omega,
        show fi + 1 - B = fi - cur.length by omega]
      simp
    · rw [if_neg hflush]
      have hlt' : (cur ++ [x]).length < B := by
        simp only [List.length_append, List.length_cons, List.length_nil]
        simp only [List.length_append, List.length_cons, List.length_nil] at hflush
        omega
      rw [ih (fi + 1) bi (cur ++ [x]) acc hlt'
        (by simp only [List.length_append, List.length_cons, List.length_nil]; omega)]
      rw [show fi + 1 - (cur ++ [x]).length = fi - cur.length by
        simp only [List.length_append, List.length_cons, List.length_nil]; omega]
      rw [show (cur ++ [x]) ++ xs = cur ++ x :: xs by simp]

/-- Closed form of read_and_write_batches for a positive batch size. -/
theorem readAndWriteBatches_eq (frames : List α) (B : ℕ) (hB : 1 ≤ B) :
    readAndWriteBatches frames B = specBatches B frames := by
  unfold readAndWriteBatches specBatches
  rw [readBatchesLoop_eq B hB frames 0 0 [] [] (by simpa using hB) (by simp)]
  simp

lemma ceil_facts (B N : ℕ) (hB : 1 ≤ B) (hN : 1 ≤ N) :
    1 ≤ (N + B - 1) / B ∧
    ((N + B - 1) / B - 1) * B < N ∧
    N ≤ ((N + B - 1) / B) * B ∧
    (N % B = 0 → (N + B - 1) / B = N / B) ∧
    (N % B ≠ 0 → (N + B - 1) / B = N / B + 1) := by
  have hd := Nat.div_add_mod N B
  have hs : N % B < B := Nat.mod_lt _ (by omega)
  rcases Nat.eq_zero_or_pos (N % B) with h0 | h1
  · have hdvd : B ∣ N := Nat.dvd_of_mod_eq_zero h0
    have hBN : B * (N / B) = N := Nat.mul_div_cancel' hdvd
    have hq1 : 1 ≤ N / B :=
      (Nat.one_le_div_iff (by omega)).mpr (Nat.le_of_dvd (by omega) hdvd)
    have hK : (N + B - 1) / B = N / B := by
      have e : N + B - 1 = B * (N / B) + (B - 1) := by rw [hBN]; omega
      rw [e, Nat.mul_add_div (by omega : 0 < B), Nat.div_eq_of_lt (by omega : B - 1 < B),
        Nat.add_zero]
    have hsub : (N / B - 1) * B = N / B * B - B := Nat.sub_one_mul _ _
    have hcomm : N / B * B = B * (N / B) := Nat.mul_comm _ _
    refine ⟨?_, ?_, ?_, fun _ => hK, fun hcon => absurd h0 hcon⟩
    · rw [hK]; exact hq1
    · rw [hK, hsub, hcomm, hBN]; omega
    · rw [hK, hcomm, hBN]
  · have e2 : B * (N / B + 1) = B * (N / B) + B := by ring
    have hK : (N + B - 1) / B = N / B + 1 := by
      have e : N + B - 1 = B * (N / B + 1) + (N % B - 1) := by
        rw [e2]
        obtain ⟨t, ht⟩ : ∃ t, B * (N / B) = t := ⟨_, rfl⟩
        obtain ⟨s, hsv⟩ : ∃ s, N % B = s := ⟨_, rfl⟩
        rw [ht, hsv] at hd ⊢
        rw [hsv] at h1
        omega
      rw [e, Nat.mul_add_div (by omega : 0 < B),
        Nat.div_eq_of_lt (Nat.lt_of_le_of_lt (Nat.sub_le _ _) hs), Nat.add_zero]
    have hsucc : (N / B + 1) * B = B * (N / B) + B := by ring
    refine ⟨?_, ?_, ?_,
      fun hcon => absurd hcon (Nat.pos_iff_ne_zero.mp h1), fun _ => hK⟩
    · rw [hK]; exact Nat.le_add_left 1 _
    · rw [hK, Nat.add_sub_cancel, Nat.mul_comm]
      obtain ⟨t, ht⟩ : ∃ t, B * (N / B) = t := ⟨_, rfl⟩
      obtain ⟨s, hsv⟩ : ∃ s, N % B = s := ⟨_, rfl⟩
      rw [ht, hsv] at hd
      rw [hsv] at h1
      rw [ht]
      omega
    · rw [hK, hsucc]
      obtain ⟨t, ht⟩ : ∃ t, B * (N / B) = t := ⟨_, rfl⟩
      obtain ⟨s, hsv⟩ : ∃ s, N % B = s := ⟨_, rfl⟩
      rw [ht, hsv] at hd
      rw [hsv] at hs
      rw [ht]
      omega

lemma specBatches_getD (B : ℕ) (m : List α) (i : ℕ) (hi : i < (m.length + B - 1) / B) :
    (specBatches B m).getD i (0, 0, 0, []) =
      (i, i * B, min ((i + 1) * B) m.length - 1, (m.drop (i * B)).take B) := by
  unfold specBatches batchesFrom
  rw [List.getD_eq_getElem?_getD, List.getElem?_map, List.getElem?_range hi]
  simp

/-- C2: for a source decoding N ≥ 1 frames and configured batch size B ≥ 1,
read_and_write_batches returns exactly ceil(N/B) batch descriptors; batch
i is (i, i*B, min((i+1)*B, N) - 1, frames[i*B .. i*B+B)), so the ranges
are consecutive and contiguous covering [0, N-1]; every non-final batch
holds exactly B frames; the final batch holds N - (K-1)*B frames, equal to
N mod B whenever N is not a multiple of B; and the final batch ends at
frame N - 1. -/
theorem read_batches_spec (frames : List α) (B : ℕ) (hB : 1 ≤ B)
    (hne : frames ≠ []) :
    readAndWriteBatches frames B = specBatches B frames ∧
    (readAndWriteBatches frames B).length = (frames.length + B - 1) / B ∧
    (∀ i, i < (frames.length + B - 1) / B →
      (readAndWriteBatches frames B).getD i (0, 0, 0, []) =
        (i, i * B, min ((i + 1) * B) frames.length - 1,
          (frames.drop (i * B)).take B)) ∧
    (∀ i, i + 1 < (frames.length + B - 1) / B →
      ((readAndWriteBatches frames B).getD i (0, 0, 0, [])).2.2.2.length = B) ∧
    (((readAndWriteBatches frames B).getD ((frames.length + B - 1) / B - 1)
        (0, 0, 0, [])).2.2.2.length
      = frames.length - ((frames.length + B - 1) / B - 1) * B) ∧
    (frames.length % B ≠ 0 →
      ((readAndWriteBatches frames B).getD ((frames.length + B - 1) / B - 1)
          (0, 0, 0, [])).2.2.2.length
        = frames.length % B) ∧
    (((readAndWriteBatches frames B).getD ((frames.length + B - 1) / B - 1)
        (0, 0, 0, [])).2.2.1 = frames.length - 1) := by
  have hN : 1 ≤ frames.length := List.length_pos.mpr hne
  obtain ⟨hK1, hKlo, hKhi, hKdvd, hKndvd⟩ := ceil_facts B frames.length hB hN
  have heq := readAndWriteBatches_eq frames B hB
  have hlen : (readAndWriteBatches frames B).length = (frames.length + B - 1) / B := by
    rw [heq]
    unfold specBatches batchesFrom
    simp
  have hKsucc : ((frames.length + B - 1) / B - 1) * B + B
      = ((frames.length + B - 1) / B) * B := by
    rw [Nat.sub_one_mul]
    have h := Nat.le_mul_of_pos_left B hK1
    obtain ⟨t, ht⟩ : ∃ t, ((frames.length + B - 1) / B) * B = t := ⟨_, rfl⟩
    rw [ht] at h ⊢
    omega
  have hgetlast := specBatches_getD B frames ((frames.length + B - 1) / B - 1)
    (Nat.sub_lt hK1 Nat.one_pos)
  have hlastlen :
      (((specBatches B frames).getD ((frames.length + B - 1) / B - 1)
        (0, 0, 0, [])).2.2.2).length
      = frames.length - ((frames.length + B - 1) / B - 1) * B := by
    rw [hgetlast]
    simp only [List.length_take, List.length_drop]
    obtain ⟨u, hu⟩ : ∃ u, ((frames.length + B - 1) / B - 1) * B = u := ⟨_, rfl⟩
    obtain ⟨t, ht⟩ : ∃ t, ((frames.length + B - 1) / B) * B = t := ⟨_, rfl⟩
    rw [hu] at hKlo ⊢
    rw [ht] at hKhi
    rw [hu, ht] at hKsucc
    omega
  refine ⟨heq, hlen, ?_, ?_, ?_, ?_, ?_⟩
  · intro i hi
    rw [heq, specBatches_getD B frames i hi]
  · intro i hi
    rw [heq, specBatches_getD B frames i (Nat.lt_of_succ_lt hi)]
    simp only [List.length_take, List.length_drop]
    have h1 : (i + 1) * B ≤ ((frames.length + B - 1) / B - 1) * B :=
      Nat.mul_le_mul_right _ (Nat.le_sub_one_of_lt hi)
    have h2 : (i + 1) * B = i * B + B := by ring
    obtain ⟨a, ha⟩ : ∃ a, i * B = a := ⟨_, rfl⟩
    obtain ⟨u, hu⟩ : ∃ u, ((frames.length + B - 1) / B - 1) * B = u := ⟨_, rfl⟩
    rw [h2, ha, hu] at h1
    rw [hu] at hKlo
    rw [ha]
    omega
  · rw [heq]; exact hlastlen
  · intro hmod
    rw [heq, hlastlen]
    have hKq := hKndvd hmod
    have hq : ((frames.length + B - 1) / B - 1) * B = frames.length / B * B := by
      rw [hKq]; simp
    have hd := Nat.div_add_mod frames.length B
    have hcomm : frames.length / B * B = B * (frames.length / B) := Nat.mul_comm _ _
    rw [hq, hcomm]
    obtain ⟨t, ht⟩ : ∃ t, B * (frames.length / B) = t := ⟨_, rfl⟩
    obtain ⟨s, hsv⟩ : ∃ s, frames.length % B = s := ⟨_, rfl⟩
    rw [ht, hsv] at hd
    rw [ht, hsv]
    omega
  · rw [heq, hgetlast]
    show min (((frames.length + B - 1) / B - 1 + 1) * B) frames.length - 1
      = frames.length - 1
    rw [show ((frames.length + B - 1) / B - 1 + 1) * B
        = ((frames.length + B - 1) / B - 1) * B + B from by ring]
    obtain ⟨u, hu⟩ : ∃ u, ((frames.length + B - 1) / B - 1) * B = u := ⟨_, rfl⟩
    obtain ⟨t, ht⟩ : ∃ t, ((frames.length + B - 1) / B) * B = t := ⟨_, rfl⟩
    rw [hu] at hKlo ⊢
    rw [ht] at hKhi
    rw [hu, ht] at hKsucc
    omega

/-- C2 witness: concrete instances of read_batches_spec.  A 90-frame source
at batch size 30 gives the 3 batches [0,29], [30,59], [60,89]; a 95-frame
source gives 4 batches with a final short batch of 5 frames. -/
theorem read_batches_spec_witness :
    (readAndWriteBatches (List.range 95) 30).length = 4 ∧
    ((readAndWriteBatches (List.range 95) 30).getD 3 (0, 0, 0, [])).2.2.2.length = 5 ∧
    (readAndWriteBatches (List.range 90) 30).map (fun b => (b.1, b.2.1, b.2.2.1))
      = [(0, 0, 29), (1, 30, 59), (2, 60, 89)] := by
  have h := read_batches_spec (List.range 95) 30 (by omega) (by decide)
  refine ⟨?_, ?_, by decide⟩
  · have h1 := h.2.1
    simpa using h1
  · have h2 := h.2.2.2.2.2.1 (by simp)
    simpa using h2

/-- C8 counterexample: a source that decodes zero frames (unopenable files
included, since VideoCapture is never checked with isOpened and cap.read
immediately returns False) makes read_and_write_batches return an empty
batch list as a normal success value; it raises nothing, so the claimed
SourceReadError failure does not happen. -/
theorem readBatches_zero_frames_ok :
    readAndWriteBatchesE ([] : List ℕ) 30 = Except.ok [] := rfl

/-- C8 amended: read_and_write_batches contains no raise statement at all;
for every decoded-frame sequence it returns normally, and a zero-frame
source yields the empty batch list as its success value. -/
theorem readBatchesE_never_errors (frames : List ℕ) (B : ℕ) :
    readAndWriteBatchesE frames B = Except.ok (readAndWriteBatches frames B) ∧
    readAndWriteBatches ([] : List ℕ) B = [] :=
  ⟨rfl, rfl⟩

/-! ## anaglyph_processor.create_anaglyph_from_stereo
(src/src/anaglyph_processor.py, lines 32-36)

OpenCV images are BGR, so for a pixel (c0, c1, c2): c0 is blue, c1 green,
c2 red.  The source assigns out[:,:,0] := left[:,:,2], out[:,:,1] :=
right[:,:,1], out[:,:,2] := right[:,:,0]. -/

def redOf (p : Pixel) : ℕ := p.2.2

def greenOf (p : Pixel) : ℕ := p.2.1

def blueOf (p : Pixel) : ℕ := p.1

/-- Per-pixel channel assignment of create_anaglyph_from_stereo. -/
def createAnaglyphPixel (l r : Pixel) : Pixel := (l.2.2, r.2.1, r.1)

/-- Whole-image assignment (numpy full-array channel copies). -/
def createAnaglyphImage (L R : Grid Pixel) : Grid Pixel :=
  List.zipWith (List.zipWith createAnaglyphPixel) L R

/-- C4 (code bug evaluation): with a pure-red left pixel BGR=(0,0,255) and
right pixel BGR=(10,20,30), the code yields output BGR=(255,20,10): the
output's red channel is the right image's blue channel and the output's
blue channel is the left image's red channel, contradicting both the
claim and the code's own inline comments; only the green channel matches. -/
theorem anaglyph_channel_swap :
    createAnaglyphImage [[(0, 0, 255)]] [[(10, 20, 30)]] = [[(255, 20, 10)]] ∧
    redOf (createAnaglyphPixel (0, 0, 255) (10, 20, 30)) ≠ redOf (0, 0, 255) ∧
    blueOf (createAnaglyphPixel (0, 0, 255) (10, 20, 30)) ≠ blueOf (10, 20, 30) ∧
    greenOf (createAnaglyphPixel (0, 0, 255) (10, 20, 30)) = greenOf (10, 20, 30) := by
  decide

/-! ## main.py run control flow (src/src/main.py)

Failure propagation skeleton of main: per-batch incremental HLS appends
are inside a try/except that logs and continues; the final assembly
encode, the audio mux, the post-assembly stream update and the metadata
injection are unguarded (subprocess check=True raises propagate); the
dedicated final-HLS republish at the end is inside its own try/except.
Step outcomes of the external tool invocations are oracle parameters. -/

inductive RunErr : Type where
  | externalTool
deriving DecidableEq, Repr

structure RunEnv where
  batchCounts : List ℕ
  incAppendFail : ℕ → Bool
  finalEncodeFail : Bool
  addAudio : Bool
  muxFail : Bool
  streamUpdateFail : Bool
  metaFail : Bool
  finalHlsFail : Bool

/-- The per-batch loop of main: frames are copied to the global sequence
(next_index advances), then the incremental append is attempted inside
try/except — its failure is logged and the loop continues either way. -/
def batchLoop (incFail : ℕ → Bool) : List ℕ → ℕ → ℕ → ℕ
  | [], _, n => n
  | c :: rest, i, n =>
    match (if incFail i then Except.error RunErr.externalTool
           else Except.ok ()) with
    | .error _ => batchLoop incFail rest (i + 1) (n + c)
    | .ok _ => batchLoop incFail rest (i + 1) (n + c)

/-- Control-flow skeleton of main after read_and_write_batches. -/
def mainRun (env : RunEnv) : Except RunErr ℕ :=
  let total := batchLoop env.incAppendFail env.batchCounts 0 0
  if env.finalEncodeFail then .error .externalTool
  else if env.addAudio && env.muxFail then .error .externalTool
  else if env.streamUpdateFail then .error .externalTool
  else if env.metaFail then .error .externalTool
  else
    match (if env.finalHlsFail then Except.error RunErr.externalTool
           else Except.ok ()) with
    | .error _ => .ok total
    | .ok _ => .ok total

lemma batchLoop_total (incFail : ℕ → Bool) :
    ∀ (counts : List ℕ) (i n : ℕ), batchLoop incFail counts i n = n + counts.sum := by
  intro counts
  induction counts with
  | nil => intro i n; simp [batchLoop]
  | cons c rest ih =>
    intro i n
    unfold batchLoop
    rcases h : incFail i with hf | ht <;> simp [h, ih, Nat.add_assoc]

def c6env : RunEnv :=
  ⟨[2, 3], fun _ => false, false, true, false, false, false, true⟩

/-- C6 counterexample: in a run whose dedicated final-HLS publishing step
(invoked after global assembly, audio muxing and metadata injection) throws,
main still returns normally with all 5 frames assembled — that step sits in
its own try/except and its failure is only logged, so the claimed job-fatal
propagation of the final stream-publishing failure does not happen. -/
theorem mainRun_finalHls_swallowed : mainRun c6env = Except.ok 5 := rfl

def c6envW : RunEnv :=
  ⟨[2, 3], fun _ => true, false, true, false, false, false, true⟩

/-- C6 amended: per-batch incremental append failures and the final-HLS
republish failure are both caught and logged; exceptions in the final
assembly encode, the audio mux, the post-assembly stream update or the
metadata injection propagate out of main as job-fatal. -/
theorem mainRun_failure_policy (env : RunEnv) :
    (env.finalEncodeFail = false → (env.addAudio && env.muxFail) = false →
      env.streamUpdateFail = false → env.metaFail = false →
      mainRun env = Except.ok env.batchCounts.sum) ∧
    (env.finalEncodeFail = true →
      mainRun env = Except.error RunErr.externalTool) ∧
    (env.finalEncodeFail = false → (env.addAudio && env.muxFail) = true →
      mainRun env = Except.error RunErr.externalTool) ∧
    (env.finalEncodeFail = false → (env.addAudio && env.muxFail) = false →
      env.streamUpdateFail = true →
      mainRun env = Except.error RunErr.externalTool) ∧
    (env.finalEncodeFail = false → (env.addAudio && env.muxFail) = false →
      env.streamUpdateFail = false → env.metaFail = true →
      mainRun env = Except.error RunErr.externalTool) := by
  refine ⟨?_, ?_, ?_, ?_, ?_⟩
  · intro h1 h2 h3 h4
    unfold mainRun
    rw [batchLoop_total]
    simp [h1, h2, h3, h4]
    try (split <;> rfl)
  · intro h1
    unfold mainRun
    rw [batchLoop_total]
    simp [h1]
  · intro h1 h2
    unfold mainRun
    rw [batchLoop_total]
    simp [h1, h2]
  · intro h1 h2 h3
    unfold mainRun
    rw [batchLoop_total]
    simp [h1, h2, h3]
  · intro h1 h2 h3 h4
    unfold mainRun
    rw [batchLoop_total]
    simp [h1, h2, h3, h4]

/-- C6 witness: a run with every incremental append failing and the
final-HLS republish failing still completes with all 5 frames. -/
theorem mainRun_failure_policy_witness : mainRun c6envW = Except.ok 5 :=
  (mainRun_failure_policy c6envW).1 rfl rfl rfl rfl

/-! ## streaming.py segment numbering (src/src/streaming.py)

_next_segment_start_number scans the stream directory for names matching
the anchored pattern segment_(5 digits).ts, takes the maximal parsed
number into an Int accumulator started at -1, and returns max+1, or 0
when nothing matched.  add_batch_to_hls then hands that start number to
ffmpeg (-start_number with template segment_%05d.ts). -/

def digitChar : ℕ → Char
  | 0 => '0'
  | 1 => '1'
  | 2 => '2'
  | 3 => '3'
  | 4 => '4'
  | 5 => '5'
  | 6 => '6'
  | 7 => '7'
  | 8 => '8'
  | _ => '9'

def digitVal (c : Char) : ℕ := c.toNat - 48

/-- The regex segment_(5 digits).ts anchored at both ends, on the
character list of a filename. -/
def parseSegChars : List Char → Option ℕ
  | ['s', 'e', 'g', 'm', 'e', 'n', 't', '_', a, b, c, d, e, '.', 't', 's'] =>
    if a.isDigit && b.isDigit && c.isDigit && d.isDigit && e.isDigit then
      some ((((digitVal a * 10 + digitVal b) * 10 + digitVal c) * 10
        + digitVal d) * 10 + digitVal e)
    else none
  | _ => none

def parseSegmentName (s : String) : Option ℕ := parseSegChars s.data

/-- One scan step of _next_segment_start_number (idx > max_idx keeps the
larger, i.e. the running maximum, starting from -1). -/
def segIntStep (m : ℤ) (n : String) : ℤ :=
  match parseSegmentName n with
  | some k => max m (k : ℤ)
  | none => m

/-- _next_segment_start_number over the directory listing. -/
def nextSegmentStartNumber (names : List String) : ℕ :=
  let maxIdx := names.foldl segIntStep (-1)
  if 0 ≤ maxIdx then (maxIdx + 1).toNat else 0

/-- Natural-number formulation of the same scan (max of parsed+1, else 0). -/
def segNatStep (a : ℕ) (n : String) : ℕ :=
  match parseSegmentName n with
  | some k => max a (k + 1)
  | none => a

def specNext (names : List String) : ℕ := names.foldl segNatStep 0

lemma foldl_int_nat :
    ∀ (names : List String) (m : ℤ) (a : ℕ), m = (a : ℤ) - 1 →
      names.foldl segIntStep m = ((names.foldl segNatStep a : ℕ) : ℤ) - 1 := by
  intro names
  induction names with
  | nil => intro m a h; simpa using h
  | cons n ns ih =>
    intro m a h
    simp only [List.foldl_cons]
    apply ih
    unfold segIntStep segNatStep
    cases parseSegmentName n with
    | none => exact h
    | some k => push_cast; omega

lemma nextSegmentStartNumber_eq (names : List String) :
    nextSegmentStartNumber names = specNext names := by
  show (if 0 ≤ names.foldl segIntStep (-1) then
      (names.foldl segIntStep (-1) + 1).toNat else 0) = specNext names
  rw [foldl_int_nat names (-1) 0 (by norm_num)]
  unfold specNext
  split <;> omega

lemma specNext_filterMap :
    ∀ (names : List String) (a : ℕ),
      names.foldl segNatStep a
        = ((names.filterMap parseSegmentName).map (· + 1)).foldl max a := by
  intro names
  induction names with
  | nil => intro a; rfl
  | cons n ns ih =>
    intro a
    rcases hp : parseSegmentName n with _ | k
    · simp only [List.foldl_cons, List.filterMap_cons, hp]
      rw [show segNatStep a n = a from by unfold segNatStep; rw [hp]]
      exact ih a
    · simp only [List.foldl_cons, List.filterMap_cons, hp, List.map_cons]
      rw [show segNatStep a n = max a (k + 1) from by unfold segNatStep; rw [hp]]
      exact ih _

/-- Modelled from the spec: ffmpeg's hls muxer with -start_number and
segment filename template segment_%05d.ts writes k consecutive segment
files numbered start, start+1, ..., start+k-1 (zero-padded to 5 digits
for numbers below 100000). -/
def segChars (n : ℕ) : List Char :=
  if n < 100000 then
    ['s', 'e', 'g', 'm', 'e', 'n', 't', '_',
      digitChar (n / 10000 % 10), digitChar (n / 1000 % 10),
      digitChar (n / 100 % 10), digitChar (n / 10 % 10), digitChar (n % 10),
      '.', 't', 's']
  else
    ['s', 'e', 'g', 'm', 'e', 'n', 't', '_',
      digitChar (n / 100000 % 10), digitChar (n / 10000 % 10),
      digitChar (n / 1000 % 10), digitChar (n / 100 % 10),
      digitChar (n / 10 % 10), digitChar (n % 10), '.', 't', 's']

def segName (n : ℕ) : String := String.mk (segChars n)

/-- Modelled from the spec: the filenames one append call adds. -/
def hlsAppendNames (start k : ℕ) : List String :=
  (List.range k).map (fun j => segName (start + j))

/-- N sequential append calls on a directory: each computes its start
number from the current listing, writes its segments, and returns the
written segment-number lists. -/
def runAppends : List String → List ℕ → List String × List (List ℕ)
  | dir, [] => (dir, [])
  | dir, k :: ks =>
    let s := nextSegmentStartNumber dir
    let res := runAppends (dir ++ hlsAppendNames s k) ks
    (res.1, List.range' s k :: res.2)

/-- Spec-side shape of the written segment numbers. -/
def buildRanges : ℕ → List ℕ → List (List ℕ)
  | _, [] => []
  | s, k :: ks => List.range' s k :: buildRanges (s + k) ks

lemma digitChar_isDigit (d : ℕ) (hd : d < 10) : (digitChar d).isDigit = true := by
  interval_cases d <;> decide

lemma digitVal_digitChar (d : ℕ) (hd : d < 10) : digitVal (digitChar d) = d := by
  interval_cases d <;> decide

lemma parse_mk (cs : List Char) :
    parseSegmentName (String.mk cs) = parseSegChars cs := rfl

lemma parse_segName (n : ℕ) (hn : n < 100000) :
    parseSegmentName (segName n) = some n := by
  unfold segName segChars
  rw [if_pos hn, parse_mk]
  show (if ((digitChar (n / 10000 % 10)).isDigit && (digitChar (n / 1000 % 10)).isDigit
        && (digitChar (n / 100 % 10)).isDigit && (digitChar (n / 10 % 10)).isDigit
        && (digitChar (n % 10)).isDigit) = true then
      some ((((digitVal (digitChar (n / 10000 % 10)) * 10
          + digitVal (digitChar (n / 1000 % 10))) * 10
          + digitVal (digitChar (n / 100 % 10))) * 10
          + digitVal (digitChar (n / 10 % 10))) * 10
          + digitVal (digitChar (n % 10)))
    else none) = some n
  rw [digitChar_isDigit _ (by omega), digitChar_isDigit _ (by omega),
    digitChar_isDigit _ (by omega), digitChar_isDigit _ (by omega),
    digitChar_isDigit _ (by omega)]
  simp only [Bool.and_self, if_true]
  rw [digitVal_digitChar _ (by omega), digitVal_digitChar _ (by omega),
    digitVal_digitChar _ (by omega), digitVal_digitChar _ (by omega),
    digitVal_digitChar _ (by omega)]
  congr 1
  omega

lemma foldl_segNatStep_names (k : ℕ) :
    ∀ (s a : ℕ), a ≤ s → s + k ≤ 100000 → 1 ≤ k →
      (hlsAppendNames s k).foldl segNatStep a = s + k := by
  induction k with
  | zero => intro s a _ _ hk; omega
  | succ k ih =>
    intro s a ha hb _
    have hexp : hlsAppendNames s (k + 1) = segName s :: hlsAppendNames (s + 1) k := by
      unfold hlsAppendNames
      rw [List.range_succ_eq_map, List.map_cons, List.map_map, Nat.add_zero]
      congr 1
      apply List.map_congr_left
      intro j _
      simp only [Function.comp_apply]
      congr 1
      omega
    have hstep : segNatStep a (segName s) = max a (s + 1) := by
      unfold segNatStep
      rw [parse_segName s (by omega)]
    rw [hexp, List.foldl_cons, hstep]
    rcases Nat.eq_zero_or_pos k with rfl | hk1
    · simp only [hlsAppendNames, List.range_zero, List.map_nil, List.foldl_nil]
      omega
    · rw [ih (s + 1) _ (by omega) (by omega) hk1]
      omega

lemma nextSeg_after_append (dir : List String) (s k : ℕ)
    (hd : nextSegmentStartNumber dir ≤ s) (hk : 1 ≤ k) (hb : s + k ≤ 100000) :
    nextSegmentStartNumber (dir ++ hlsAppendNames s k) = s + k := by
  rw [nextSegmentStartNumber_eq] at hd ⊢
  unfold specNext at hd ⊢
  rw [List.foldl_append]
  exact foldl_segNatStep_names k s _ hd hb hk

lemma runAppends_eq :
    ∀ (ks : List ℕ) (dir : List String), (∀ k ∈ ks, 1 ≤ k) →
      nextSegmentStartNumber dir + ks.sum ≤ 100000 →
      (runAppends dir ks).2 = buildRanges (nextSegmentStartNumber dir) ks := by
  intro ks
  induction ks with
  | nil => intro dir _ _; rfl
  | cons k ks ih =>
    intro dir hk hb
    simp only [runAppends, buildRanges]
    congr 1
    rw [ih (dir ++ hlsAppendNames (nextSegmentStartNumber dir) k)
      (fun x hx => hk x (List.mem_cons_of_mem _ hx)) ?hb2]
    case hb2 =>
      rw [nextSeg_after_append dir _ k le_rfl (hk k (List.mem_cons_self k ks))
        (by simp [List.sum_cons] at hb; omega)]
      simp [List.sum_cons] at hb
      omega
    rw [nextSeg_after_append dir _ k le_rfl (hk k (List.mem_cons_self k ks))
      (by simp [List.sum_cons] at hb; omega)]

lemma buildRanges_flatten :
    ∀ (ks : List ℕ) (s : ℕ), (buildRanges s ks).flatten = List.range' s ks.sum := by
  intro ks
  induction ks with
  | nil => intro s; rfl
  | cons k ks ih =>
    intro s
    simp only [buildRanges, List.flatten_cons, ih, List.sum_cons]
    rw [Nat.add_comm k ks.sum]
    exact List.range'_append_1 s k ks.sum

/-- C5: the segment start number chosen by an append equals one plus the
maximum parsed segment number present in the directory, or 0 when none
parses (formulated as the fold of max over parsed+1); and across N
sequential append calls, each writing at least one segment, the written
segment numbers form per-append ranges that concatenate to the contiguous
strictly increasing range starting at the initial scan result — gap-free
and duplicate-free even over M pre-existing segments (the 100000 bound
keeps every written name inside the 5-digit namespace the scanner's regex
can read back). -/
theorem segment_numbering_gapfree (dir : List String) (ks : List ℕ)
    (hk : ∀ k ∈ ks, 1 ≤ k)
    (hb : nextSegmentStartNumber dir + ks.sum ≤ 100000) :
    (∀ names : List String,
      nextSegmentStartNumber names
        = ((names.filterMap parseSegmentName).map (· + 1)).foldl max 0) ∧
    (runAppends dir ks).2 = buildRanges (nextSegmentStartNumber dir) ks ∧
    ((runAppends dir ks).2).flatten
      = List.range' (nextSegmentStartNumber dir) ks.sum := by
  refine ⟨?_, runAppends_eq ks dir hk hb, ?_⟩
  · intro names
    rw [nextSegmentStartNumber_eq]
    exact specNext_filterMap names 0
  · rw [runAppends_eq ks dir hk hb]
    exact buildRanges_flatten ks _

def c5dir : List String :=
  [String.mk ['s', 'e', 'g', 'm', 'e', 'n', 't', '_', '0', '0', '0', '0', '3',
     '.', 't', 's'],
   String.mk ['n', 'o', 't', 'e', 's', '.', 't', 'x', 't']]

/-- C5 witness: on a directory already holding segment_00003.ts and an
unrelated file, two appends of 2 and 1 segments write exactly the numbers
4, 5, 6. -/
theorem segment_numbering_gapfree_witness :
    ((runAppends c5dir [2, 1]).2).flatten = [4, 5, 6] := by
  have h := segment_numbering_gapfree c5dir [2, 1] (by decide) (by decide)
  rw [h.2.2]
  decide

/-! ## stereo.generate_stereo_from_depth_frame (src/src/stereo.py)

The shift grid is (1 - depth) * max_shift with depth normalized to [0,1]
(grayscale value / 255, or a uniform field of ones when depth is None).
Each row of the shift grid is cast with astype(np.int32), which truncates
toward zero.  The scatter writes frame[y, x] to left[y, min(W-1, x+dx)]
and right[y, max(0, x-dx)], later x overwriting earlier.  Reading
shift[y] requires y inside the depth grid's rows and reading dx_row[x]
requires x inside its columns; those reads are the only places a numpy
IndexError can arise when depth values stay in [0,255] and max_shift is
nonnegative (the write indices are then always in bounds). -/

/-- astype(np.int32) on a scalar: truncation toward zero. -/
def truncQ (q : ℚ) : ℤ := if 0 ≤ q then ⌊q⌋ else -⌊-q⌋

/-- Integer shift of one pixel: trunc((1 - depth) * max_shift). -/
def shiftInt (q ms : ℚ) : ℤ := truncQ ((1 - q) * ms)

/-- Destination column in the left eye: min(W-1, x+dx). -/
def clampL (W x : ℕ) (dx : ℤ) : ℕ := (min ((W : ℤ) - 1) ((x : ℤ) + dx)).toNat

/-- Destination column in the right eye: max(0, x-dx). -/
def clampR (x : ℕ) (dx : ℤ) : ℕ := (max 0 ((x : ℤ) - dx)).toNat

/-- A freshly zeroed output row (np.zeros_like). -/
def zeroRow (W : ℕ) : List Pixel := List.replicate W (0, 0, 0)

/-- The x-loop of the scatter for one output row, with a generic
destination-column function. -/
def scatterRowP (W : ℕ) (pos : ℕ → ℤ → ℕ) (fr : List Pixel) (dxRow : List ℤ) :
    List Pixel :=
  (List.range W).foldl
    (fun acc x => acc.set (pos x (dxRow.getD x 0)) (fr.getD x (0, 0, 0)))
    (zeroRow W)

def scatterRowL (W : ℕ) (fr : List Pixel) (dxRow : List ℤ) : List Pixel :=
  scatterRowP W (fun x d => clampL W x d) fr dxRow

def scatterRowR (W : ℕ) (fr : List Pixel) (dxRow : List ℤ) : List Pixel :=
  scatterRowP W (fun x d => clampR x d) fr dxRow

/-- Integer shift row for frame row y: shift[y].astype(np.int32). -/
def dxRowAt (depthN : Grid ℚ) (y : ℕ) (ms : ℚ) : List ℤ :=
  (depthN.getD y []).map (fun q => shiftInt q ms)

/-- The scatter phase of generate_stereo_from_depth_frame (before hole
detection and inpainting), on a frame and an already-normalized depth
field. -/
def generateStereoCore (frame : Grid Pixel) (depthN : Grid ℚ) (ms : ℚ) :
    Grid Pixel × Grid Pixel :=
  ((List.range frame.length).map fun y =>
      scatterRowL (frame.getD 0 []).length (frame.getD y []) (dxRowAt depthN y ms),
   (List.range frame.length).map fun y =>
      scatterRowR (frame.getD 0 []).length (frame.getD y []) (dxRowAt depthN y ms))

inductive StereoErr : Type where
  | indexError
deriving DecidableEq, Repr

/-- One x-step of the scatter with the numpy read of dx_row[x] made
explicit: out of bounds raises IndexError. -/
def rowStepE (W : ℕ) (fr : List Pixel) (dxRow : List ℤ)
    (lr : List Pixel × List Pixel) (x : ℕ) :
    Except StereoErr (List Pixel × List Pixel) :=
  match dxRow[x]? with
  | none => .error .indexError
  | some dx =>
    .ok (lr.1.set (clampL W x dx) (fr.getD x (0, 0, 0)),
         lr.2.set (clampR x dx) (fr.getD x (0, 0, 0)))

def stereoRowE (W : ℕ) (fr : List Pixel) (dxRow : List ℤ) :
    Except StereoErr (List Pixel × List Pixel) :=
  (List.range W).foldlM (rowStepE W fr dxRow) (zeroRow W, zeroRow W)

/-- One y-step of the scatter with the numpy read of shift[y] made
explicit. -/
def loopStepE (frame : Grid Pixel) (depthQ : Grid ℚ) (ms : ℚ)
    (acc : Grid Pixel × Grid Pixel) (y : ℕ) :
    Except StereoErr (Grid Pixel × Grid Pixel) :=
  match depthQ[y]? with
  | none => .error .indexError
  | some drow =>
    match stereoRowE (frame.getD 0 []).length (frame.getD y [])
        (drow.map (fun q => shiftInt q ms)) with
    | .error e => .error e
    | .ok lr => .ok (acc.1 ++ [lr.1], acc.2 ++ [lr.2])

def stereoLoopE (frame : Grid Pixel) (depthQ : Grid ℚ) (ms : ℚ) :
    Except StereoErr (Grid Pixel × Grid Pixel) :=
  (List.range frame.length).foldlM (loopStepE frame depthQ ms) ([], [])

/-- Depth normalization of the source: grayscale/255 when a depth image
is present, np.ones (uniform neutral value 1) when depth is None. -/
def normalizeDepth (H W : ℕ) : Option (Grid ℕ) → Grid ℚ
  | none => List.replicate H (List.replicate W (1 : ℚ))
  | some d => d.map (List.map (fun (g : ℕ) => (g : ℚ) / 255))

/-- generate_stereo_from_depth_frame up to (excluding) inpainting, with
its exception behaviour explicit. -/
def generateStereoE (frame : Grid Pixel) (depth : Option (Grid ℕ)) (ms : ℚ) :
    Except StereoErr (Grid Pixel × Grid Pixel) :=
  stereoLoopE frame
    (normalizeDepth frame.length (frame.getD 0 []).length depth) ms

instance exceptDecEq {ε α : Type} [DecidableEq ε] [DecidableEq α] :
    DecidableEq (Except ε α) := fun a b =>
  match a, b with
  | .error e, .error f =>
    if h : e = f then .isTrue (by rw [h])
    else .isFalse (fun hc => h (Except.error.inj hc))
  | .error _, .ok _ => .isFalse (fun hc => Except.noConfusion hc)
  | .ok _, .error _ => .isFalse (fun hc => Except.noConfusion hc)
  | .ok a, .ok b =>
    if h : a = b then .isTrue (by rw [h])
    else .isFalse (fun hc => h (Except.ok.inj hc))

instance rectDec {α : Type} (g : Grid α) (H W : ℕ) : Decidable (Rect g H W) := by
  unfold Rect
  infer_instance

lemma exceptOk_bind {ε α β : Type} (a : α) (f : α → Except ε β) :
    (Except.ok a >>= f) = f a := rfl

lemma exceptErr_bind {ε α β : Type} (e : ε) (f : α → Except ε β) :
    (Except.error e >>= f) = Except.error e := rfl

lemma foldlM_ok_pair (dxRow : List ℤ) (W : ℕ) (fr : List Pixel) :
    ∀ (l : List ℕ), (∀ x ∈ l, x < dxRow.length) → ∀ (L R : List Pixel),
      l.foldlM (rowStepE W fr dxRow) (L, R)
        = .ok
          (l.foldl (fun acc x =>
            acc.set (clampL W x (dxRow.getD x 0)) (fr.getD x (0, 0, 0))) L,
           l.foldl (fun acc x =>
            acc.set (clampR x (dxRow.getD x 0)) (fr.getD x (0, 0, 0))) R) := by
  intro l
  induction l with
  | nil => intro _ L R; rfl
  | cons x xs ih =>
    intro h L R
    rw [List.foldlM_cons]
    have hx : x < dxRow.length := h x (List.mem_cons_self x xs)
    have hsome : dxRow[x]? = some dxRow[x] := List.getElem?_eq_getElem hx
    have hgetD : dxRow.getD x 0 = dxRow[x] := by
      rw [List.getD_eq_getElem?_getD, hsome]; rfl
    rw [show rowStepE W fr dxRow (L, R) x
        = .ok (L.set (clampL W x (dxRow.getD x 0)) (fr.getD x (0, 0, 0)),
               R.set (clampR x (dxRow.getD x 0)) (fr.getD x (0, 0, 0))) from by
      unfold rowStepE
      rw [hsome, hgetD]]
    rw [exceptOk_bind]
    rw [ih (fun z hz => h z (List.mem_cons_of_mem _ hz))]
    simp [List.foldl_cons]

lemma foldlM_err_of_bad (dxRow : List ℤ) (W : ℕ) (fr : List Pixel) :
    ∀ (l : List ℕ), (∃ x ∈ l, dxRow.length ≤ x) →
      ∀ (init : List Pixel × List Pixel),
        l.foldlM (rowStepE W fr dxRow) init = .error .indexError := by
  intro l
  induction l with
  | nil =>
    rintro ⟨x, hx, _⟩
    exact absurd hx (List.not_mem_nil x)
  | cons y ys ih =>
    rintro ⟨x, hx, hxb⟩ init
    rw [List.foldlM_cons]
    by_cases hy : dxRow.length ≤ y
    · rw [show rowStepE W fr dxRow init y = .error .indexError from by
        unfold rowStepE
        rw [List.getElem?_eq_none hy]]
      rfl
    · have hysome : dxRow[y]? = some dxRow[y] := List.getElem?_eq_getElem (by omega)
      rw [show rowStepE W fr dxRow init y
          = .ok (init.1.set (clampL W y dxRow[y]) (fr.getD y (0, 0, 0)),
                 init.2.set (clampR y dxRow[y]) (fr.getD y (0, 0, 0))) from by
        unfold rowStepE
        rw [hysome]]
      rw [exceptOk_bind]
      rcases List.mem_cons.mp hx with rfl | hmem
      · exact absurd hxb hy
      · exact ih ⟨x, hmem, hxb⟩ _

lemma stereoRowE_ok (W : ℕ) (fr : List Pixel) (dxRow : List ℤ)
    (h : W ≤ dxRow.length) :
    stereoRowE W fr dxRow = .ok (scatterRowL W fr dxRow, scatterRowR W fr dxRow) := by
  unfold stereoRowE scatterRowL scatterRowR scatterRowP
  exact foldlM_ok_pair dxRow W fr (List.range W)
    (fun x hx => lt_of_lt_of_le (List.mem_range.mp hx) h) _ _

lemma stereoRowE_err (W : ℕ) (fr : List Pixel) (dxRow : List ℤ)
    (h : dxRow.length < W) :
    stereoRowE W fr dxRow = .error .indexError :=
  foldlM_err_of_bad dxRow W fr (List.range W)
    ⟨dxRow.length, List.mem_range.mpr h, le_rfl⟩ _

lemma loopStepE_step_ok (frame : Grid Pixel) (depthQ : Grid ℚ) (ms : ℚ)
    (acc : Grid Pixel × Grid Pixel) (y : ℕ) (hy : y < depthQ.length)
    (hw : (frame.getD 0 []).length ≤ (depthQ.getD y []).length) :
    loopStepE frame depthQ ms acc y
      = .ok (acc.1 ++ [scatterRowL (frame.getD 0 []).length (frame.getD y [])
              (dxRowAt depthQ y ms)],
             acc.2 ++ [scatterRowR (frame.getD 0 []).length (frame.getD y [])
              (dxRowAt depthQ y ms)]) := by
  have hsome : depthQ[y]? = some depthQ[y] := List.getElem?_eq_getElem hy
  have hgetD : depthQ.getD y [] = depthQ[y] := by
    rw [List.getD_eq_getElem?_getD, hsome]; rfl
  unfold loopStepE
  split
  · next heq => rw [hsome] at heq; cases heq
  · next drow heq =>
    have hdrow : drow = depthQ.getD y [] := by
      rw [hsome] at heq
      rw [hgetD]
      exact (Option.some_inj.mp heq).symm
    subst hdrow
    rw [stereoRowE_ok _ _ _ (by rw [List.length_map]; exact hw)]
    rfl

lemma loopStepE_step_err_none (frame : Grid Pixel) (depthQ : Grid ℚ) (ms : ℚ)
    (acc : Grid Pixel × Grid Pixel) (y : ℕ) (hy : depthQ.length ≤ y) :
    loopStepE frame depthQ ms acc y = .error .indexError := by
  unfold loopStepE
  split
  · rfl
  · next drow heq =>
    rw [List.getElem?_eq_none hy] at heq
    cases heq

lemma loopStepE_step_err_row (frame : Grid Pixel) (depthQ : Grid ℚ) (ms : ℚ)
    (acc : Grid Pixel × Grid Pixel) (y : ℕ) (hy : y < depthQ.length)
    (hw : (depthQ.getD y []).length < (frame.getD 0 []).length) :
    loopStepE frame depthQ ms acc y = .error .indexError := by
  have hsome : depthQ[y]? = some depthQ[y] := List.getElem?_eq_getElem hy
  have hgetD : depthQ.getD y [] = depthQ[y] := by
    rw [List.getD_eq_getElem?_getD, hsome]; rfl
  unfold loopStepE
  split
  · rfl
  · next drow heq =>
    have hdrow : drow = depthQ.getD y [] := by
      rw [hsome] at heq
      rw [hgetD]
      exact (Option.some_inj.mp heq).symm
    subst hdrow
    rw [stereoRowE_err _ _ _ (by rw [List.length_map]; exact hw)]

lemma foldlM_loop_ok (frame : Grid Pixel) (depthQ : Grid ℚ) (ms : ℚ) :
    ∀ (l : List ℕ),
      (∀ y ∈ l, y < depthQ.length ∧
        (frame.getD 0 []).length ≤ (depthQ.getD y []).length) →
      ∀ (L R : Grid Pixel),
        l.foldlM (loopStepE frame depthQ ms) (L, R)
          = .ok
            (L ++ l.map (fun y => scatterRowL (frame.getD 0 []).length
                (frame.getD y []) (dxRowAt depthQ y ms)),
             R ++ l.map (fun y => scatterRowR (frame.getD 0 []).length
                (frame.getD y []) (dxRowAt depthQ y ms))) := by
  intro l
  induction l with
  | nil =>
    intro _ L R
    simp only [List.map_nil, List.append_nil, List.foldlM_nil]
    rfl
  | cons y ys ih =>
    intro h L R
    obtain ⟨hy, hw⟩ := h y (List.mem_cons_self y ys)
    rw [List.foldlM_cons, loopStepE_step_ok frame depthQ ms (L, R) y hy hw,
      exceptOk_bind, ih (fun z hz => h z (List.mem_cons_of_mem _ hz))]
    simp [List.map_cons, List.append_assoc]

lemma foldlM_loop_err (frame : Grid Pixel) (depthQ : Grid ℚ) (ms : ℚ) :
    ∀ (l : List ℕ),
      (∃ y ∈ l, depthQ.length ≤ y ∨
        (depthQ.getD y []).length < (frame.getD 0 []).length) →
      ∀ (init : Grid Pixel × Grid Pixel),
        l.foldlM (loopStepE frame depthQ ms) init = .error .indexError := by
  intro l
  induction l with
  | nil =>
    rintro ⟨y, hy, _⟩
    exact absurd hy (List.not_mem_nil y)
  | cons z zs ih =>
    rintro ⟨y, hy, hbad⟩ init
    rw [List.foldlM_cons]
    by_cases hz : depthQ.length ≤ z
    · rw [loopStepE_step_err_none frame depthQ ms init z hz]
      rfl
    · by_cases hzrow : (depthQ.getD z []).length < (frame.getD 0 []).length
      · rw [loopStepE_step_err_row frame depthQ ms init z (by omega) hzrow]
        rfl
      · rw [loopStepE_step_ok frame depthQ ms init z (by omega) (by omega)]
        rw [exceptOk_bind]
        rcases List.mem_cons.mp hy with rfl | hmem
        · rcases hbad with h1 | h2
          · exact absurd h1 hz
          · exact absurd h2 hzrow
        · exact ih ⟨y, hmem, hbad⟩ _

lemma stereoLoopE_ok (frame : Grid Pixel) (depthQ : Grid ℚ) (ms : ℚ)
    (hrows : frame.length ≤ depthQ.length)
    (hcols : ∀ y, y < frame.length →
      (frame.getD 0 []).length ≤ (depthQ.getD y []).length) :
    stereoLoopE frame depthQ ms = .ok (generateStereoCore frame depthQ ms) := by
  unfold stereoLoopE generateStereoCore
  rw [foldlM_loop_ok frame depthQ ms (List.range frame.length)
    (fun y hy => ⟨lt_of_lt_of_le (List.mem_range.mp hy) hrows,
      hcols y (List.mem_range.mp hy)⟩) [] []]
  simp

lemma getD_grid_map {α β : Type} (f : α → β) (g : List (List α)) (y : ℕ) :
    (g.map (List.map f)).getD y [] = (g.getD y []).map f := by
  rw [List.getD_eq_getElem?_getD, List.getD_eq_getElem?_getD, List.getElem?_map]
  cases g[y]? with
  | none => rfl
  | some r => rfl

/-- C7 (amended): the scatter loop of generate_stereo_from_depth_frame
raises an IndexError if and only if the depth grid is strictly smaller
than the frame in rows or in columns (a depth grid larger than the frame
is silently accepted; no ShapeMismatchError class exists in the code);
and a None depth is tolerated: the loop succeeds, with depth substituted
by the uniform neutral field of ones, producing a stereo pair. -/
theorem stereo_error_iff_smaller_depth (frame : Grid Pixel) (depth : Grid ℕ)
    (H W Hd Wd : ℕ) (ms : ℚ) (hf : Rect frame H W) (hd : Rect depth Hd Wd)
    (hH : 0 < H) (hW : 0 < W)
    (hval : ∀ r ∈ depth, ∀ g ∈ r, g ≤ 255) (hms : 0 ≤ ms) :
    (generateStereoE frame (some depth) ms = .error .indexError
      ↔ Hd < H ∨ Wd < W) ∧
    generateStereoE frame none ms
      = .ok (generateStereoCore frame
          (List.replicate H (List.replicate W (1 : ℚ))) ms) := by
  obtain ⟨hfl, hfr⟩ := hf
  obtain ⟨hdl, hdr⟩ := hd
  have hflt : 0 < frame.length := by omega
  have hW0 : (frame.getD 0 []).length = W := by
    have h0 : frame.getD 0 [] ∈ frame := by
      rw [List.getD_eq_getElem _ _ hflt]
      exact List.getElem_mem _
    exact hfr _ h0
  set depthQ := normalizeDepth frame.length (frame.getD 0 []).length (some depth)
    with hdq
  have hdqlen : depthQ.length = Hd := by
    rw [hdq]
    unfold normalizeDepth
    rw [List.length_map, hdl]
  have hdqrow : ∀ y, y < Hd → (depthQ.getD y []).length = Wd := by
    intro y hy
    rw [hdq]
    unfold normalizeDepth
    rw [getD_grid_map, List.length_map]
    have hlt : y < depth.length := by omega
    have hmem : depth.getD y [] ∈ depth := by
      rw [List.getD_eq_getElem _ _ hlt]
      exact List.getElem_mem _
    exact hdr _ hmem
  constructor
  · constructor
    · intro herr
      by_contra hno
      push_neg at hno
      obtain ⟨h1, h2⟩ := hno
      have hok := stereoLoopE_ok frame depthQ ms
        (by rw [hfl, hdqlen]; omega)
        (by
          intro y hy
          rw [hW0, hdqrow y (by omega)]
          omega)
      rw [show generateStereoE frame (some depth) ms
          = stereoLoopE frame depthQ ms from rfl, hok] at herr
      simp at herr
    · intro hmis
      rw [show generateStereoE frame (some depth) ms
          = stereoLoopE frame depthQ ms from rfl]
      unfold stereoLoopE
      apply foldlM_loop_err
      by_cases hHd : Hd < H
      · exact ⟨Hd, List.mem_range.mpr (by omega), Or.inl (by omega)⟩
      · have hWd : Wd < W := by
          rcases hmis with h | h
          · omega
          · exact h
        refine ⟨0, List.mem_range.mpr (by omega), Or.inr ?_⟩
        rw [hW0, hdqrow 0 (by omega)]
        exact hWd
  · rw [show generateStereoE frame none ms
      = stereoLoopE frame
          (normalizeDepth frame.length (frame.getD 0 []).length none) ms from rfl]
    have hrep : normalizeDepth frame.length (frame.getD 0 []).length none
        = List.replicate H (List.replicate W (1 : ℚ)) := by
      unfold normalizeDepth
      rw [hfl, hW0]
    rw [hrep]
    apply stereoLoopE_ok
    · rw [hfl, List.length_replicate]
    · intro y hy
      rw [hW0]
      have hlt : y < (List.replicate H (List.replicate W (1 : ℚ))).length := by
        rw [List.length_replicate]
        omega
      have hgd : (List.replicate H (List.replicate W (1 : ℚ))).getD y []
          = List.replicate W (1 : ℚ) := by
        rw [List.getD_eq_getElem _ _ hlt]
        simp
      rw [hgd, List.length_replicate]

def c7frame : Grid Pixel := [[(5, 6, 7)]]

def c7depthBig : Grid ℕ := [[10, 20], [30, 40]]

/-- C7 counterexample: a 1x1 frame with a 2x2 depth grid — dimensions
mismatch, yet generate_stereo_from_depth_frame raises nothing at all (the
frame-driven loops never read outside the larger depth grid), refuting
the claimed if-and-only-if failure on dimension mismatch. -/
theorem stereo_larger_depth_no_error :
    generateStereoE c7frame (some c7depthBig) 30
      ≠ Except.error StereoErr.indexError ∧
    (generateStereoE c7frame (some c7depthBig) 30).isOk = true := by
  constructor
  · decide
  · decide

def c7frame2 : Grid Pixel := [[(1, 2, 3)], [(4, 5, 6)]]

def c7depthSmall : Grid ℕ := [[7]]

/-- C7 witness: a 2x1 frame with a 1x1 depth grid errors (depth smaller in
rows), and the same frame with depth None succeeds with the uniform
neutral depth field. -/
theorem stereo_error_iff_smaller_depth_witness :
    generateStereoE c7frame2 (some c7depthSmall) 5
      = Except.error StereoErr.indexError ∧
    generateStereoE c7frame2 none 5
      = Except.ok (generateStereoCore c7frame2
          (List.replicate 2 (List.replicate 1 (1 : ℚ))) 5) := by
  have h := stereo_error_iff_smaller_depth c7frame2 c7depthSmall 2 1 1 1 5
    (by decide) (by decide) (by decide) (by decide) (by decide) (by norm_num)
  exact ⟨h.1.mpr (Or.inl (by decide)), h.2⟩

/-! ### Per-column characterization of the scatter (last writer wins) -/

/-- The last x in scan order whose destination column is c. -/
def lastHit (W : ℕ) (pos : ℕ → ℤ → ℕ) (dxRow : List ℤ) (c : ℕ) : Option ℕ :=
  ((List.range W).filter (fun x => pos x (dxRow.getD x 0) == c)).getLast?

lemma getD_map_range {α : Type} (n : ℕ) (f : ℕ → α) (d : α) {y : ℕ} (h : y < n) :
    ((List.range n).map f).getD y d = f y := by
  rw [List.getD_eq_getElem?_getD, List.getElem?_map, List.getElem?_range h]
  rfl

lemma zeroRow_getD (W c : ℕ) : (zeroRow W).getD c (0, 0, 0) = (0, 0, 0) := by
  unfold zeroRow
  rw [List.getD_eq_getElem?_getD, List.getElem?_replicate]
  split <;> rfl

lemma scatterFold_length (pos : ℕ → ℤ → ℕ) (fr : List Pixel) (dxRow : List ℤ) :
    ∀ (l : List ℕ) (acc : List Pixel),
      (l.foldl (fun acc x =>
        acc.set (pos x (dxRow.getD x 0)) (fr.getD x (0, 0, 0))) acc).length
      = acc.length := by
  intro l
  induction l with
  | nil => intro acc; rfl
  | cons x xs ih =>
    intro acc
    rw [List.foldl_cons, ih, List.length_set]

lemma scatterRowP_getD (W : ℕ) (pos : ℕ → ℤ → ℕ) (fr : List Pixel)
    (dxRow : List ℤ)
    (hpos : ∀ x, x < W → pos x (dxRow.getD x 0) < W) (c : ℕ) (hc : c < W) :
    (scatterRowP W pos fr dxRow).getD c (0, 0, 0)
      = match lastHit W pos dxRow c with
        | some x => fr.getD x (0, 0, 0)
        | none => (0, 0, 0) := by
  unfold scatterRowP lastHit
  suffices h : ∀ k, k ≤ W →
      (((List.range k).foldl (fun acc x =>
          acc.set (pos x (dxRow.getD x 0)) (fr.getD x (0, 0, 0)))
        (zeroRow W)).getD c (0, 0, 0))
      = match ((List.range k).filter
          (fun x => pos x (dxRow.getD x 0) == c)).getLast? with
        | some x => fr.getD x (0, 0, 0)
        | none => (0, 0, 0) by
    exact h W le_rfl
  intro k
  induction k with
  | zero =>
    intro _
    simp only [List.range_zero, List.foldl_nil, List.filter_nil, List.getLast?_nil]
    exact zeroRow_getD W c
  | succ k ih =>
    intro hk
    have hklen :
        (((List.range k).foldl (fun acc x =>
            acc.set (pos x (dxRow.getD x 0)) (fr.getD x (0, 0, 0)))
          (zeroRow W))).length = W := by
      rw [scatterFold_length]
      unfold zeroRow
      exact List.length_replicate ..
    rw [List.range_succ, List.foldl_append, List.filter_append]
    simp only [List.foldl_cons, List.foldl_nil]
    by_cases hhit : pos k (dxRow.getD k 0) = c
    · have hbeq : (pos k (dxRow.getD k 0) == c) = true := beq_iff_eq.mpr hhit
      have hfk : List.filter (fun x => pos x (dxRow.getD x 0) == c) [k] = [k] := by
        simp only [List.filter_cons, List.filter_nil, hbeq]
        rfl
      have hcP : c < (((List.range k).foldl (fun acc x =>
          acc.set (pos x (dxRow.getD x 0)) (fr.getD x (0, 0, 0)))
            (zeroRow W))).length := by
        rw [hklen]
        exact hc
      rw [hfk, List.getLast?_concat, List.getD_eq_getElem?_getD, hhit,
        List.getElem?_set_self hcP, Option.getD_some]
    · have hbeq : (pos k (dxRow.getD k 0) == c) = false :=
        beq_eq_false_iff_ne.mpr hhit
      have hfk : List.filter (fun x => pos x (dxRow.getD x 0) == c) [k] = [] := by
        simp only [List.filter_cons, List.filter_nil, hbeq]
        rfl
      rw [hfk, List.append_nil, List.getD_eq_getElem?_getD,
        List.getElem?_set_ne hhit, ← List.getD_eq_getElem?_getD]
      exact ih (by omega)

lemma truncQ_nonneg (q : ℚ) (h : 0 ≤ q) : 0 ≤ truncQ q := by
  unfold truncQ
  rw [if_pos h]
  exact Int.floor_nonneg.mpr h

lemma shiftInt_nonneg (q ms : ℚ) (h1 : q ≤ 1) (h2 : 0 ≤ ms) :
    0 ≤ shiftInt q ms := by
  unfold shiftInt
  exact truncQ_nonneg _ (mul_nonneg (by linarith) h2)

lemma clampL_lt (W x : ℕ) (dx : ℤ) (hW : 0 < W) : clampL W x dx < W := by
  unfold clampL
  omega

lemma clampR_lt (W x : ℕ) (dx : ℤ) (hx : x < W) (hdx : 0 ≤ dx) :
    clampR x dx < W := by
  unfold clampR
  omega

lemma dxRowAt_getD (depthN : Grid ℚ) (y : ℕ) (ms : ℚ) (x : ℕ)
    (hx : x < (depthN.getD y []).length) :
    (dxRowAt depthN y ms).getD x 0
      = shiftInt ((depthN.getD y []).getD x 0) ms := by
  unfold dxRowAt
  rw [List.getD_eq_getElem?_getD, List.getElem?_map,
    List.getElem?_eq_getElem hx]
  simp only [Option.map_some', Option.getD_some]
  rw [List.getD_eq_getElem _ _ hx]

/-- Shared characterization of both eye images of the scatter: the pixel
at (y, c) is the source pixel of the last x whose shifted destination is
column c, or zero (a hole) if no x lands there. -/
lemma stereoCore_pixAt (frame : Grid Pixel) (depthN : Grid ℚ) (ms : ℚ)
    (H W : ℕ) (hf : Rect frame H W) (hd : Rect depthN H W) (hms : 0 ≤ ms)
    (hdep : ∀ r ∈ depthN, ∀ q ∈ r, 0 ≤ q ∧ q ≤ 1)
    (y c : ℕ) (hy : y < H) (hc : c < W) :
    pixAt (generateStereoCore frame depthN ms).1 y c
      = (match lastHit W (fun x d => clampL W x d) (dxRowAt depthN y ms) c with
         | some x => pixAt frame y x
         | none => (0, 0, 0)) ∧
    pixAt (generateStereoCore frame depthN ms).2 y c
      = (match lastHit W (fun x d => clampR x d) (dxRowAt depthN y ms) c with
         | some x => pixAt frame y x
         | none => (0, 0, 0)) := by
  obtain ⟨hfl, hfr⟩ := hf
  obtain ⟨hdl, hdr⟩ := hd
  have hflt : 0 < frame.length := by omega
  have hW0 : (frame.getD 0 []).length = W := by
    have h0 : frame.getD 0 [] ∈ frame := by
      rw [List.getD_eq_getElem _ _ hflt]
      exact List.getElem_mem _
    exact hfr _ h0
  have hrowlen : (depthN.getD y []).length = W := by
    have hlt : y < depthN.length := by omega
    have hmem : depthN.getD y [] ∈ depthN := by
      rw [List.getD_eq_getElem _ _ hlt]
      exact List.getElem_mem _
    exact hdr _ hmem
  have hdx_nonneg : ∀ x, x < W → 0 ≤ (dxRowAt depthN y ms).getD x 0 := by
    intro x hx
    rw [dxRowAt_getD depthN y ms x (by omega)]
    have hqmem : (depthN.getD y []).getD x 0 ∈ depthN.getD y [] := by
      rw [List.getD_eq_getElem _ _ (by omega : x < (depthN.getD y []).length)]
      exact List.getElem_mem _
    have hrowmem : depthN.getD y [] ∈ depthN := by
      rw [List.getD_eq_getElem _ _ (by omega : y < depthN.length)]
      exact List.getElem_mem _
    obtain ⟨hq0, hq1⟩ := hdep _ hrowmem _ hqmem
    exact shiftInt_nonneg _ _ hq1 hms
  have hyr : y < frame.length := by omega
  constructor
  · show pixAt ((List.range frame.length).map fun y =>
        scatterRowL (frame.getD 0 []).length (frame.getD y [])
          (dxRowAt depthN y ms)) y c = _
    unfold pixAt
    rw [getD_map_range _ _ _ hyr]
    unfold scatterRowL
    rw [hW0]
    rw [scatterRowP_getD W _ _ _ (fun x _ => clampL_lt W x _ (by omega)) c hc]
  · show pixAt ((List.range frame.length).map fun y =>
        scatterRowR (frame.getD 0 []).length (frame.getD y [])
          (dxRowAt depthN y ms)) y c = _
    unfold pixAt
    rw [getD_map_range _ _ _ hyr]
    unfold scatterRowR
    rw [hW0]
    rw [scatterRowP_getD W _ _ _
      (fun x hx => clampR_lt W x _ hx (hdx_nonneg x hx)) c hc]

/-- The claim's reading of the per-pixel shift: rounded to the nearest
integer instead of truncated.  Everything else (the clamped scatter to
min(W-1, x+d) and max(0, x-d)) follows the code. -/
def roundShift (q ms : ℚ) : ℤ := round ((1 - q) * ms)

def claimStereoLeft (frame : Grid Pixel) (depthN : Grid ℚ) (ms : ℚ) :
    Grid Pixel :=
  (List.range frame.length).map fun y =>
    scatterRowL (frame.getD 0 []).length (frame.getD y [])
      ((depthN.getD y []).map (fun q => roundShift q ms))

lemma shiftInt_127_255 : shiftInt ((127 : ℚ) / 255) 1 = 0 := by
  unfold shiftInt truncQ
  rw [if_pos (by norm_num)]
  rw [Int.floor_eq_iff]
  norm_num

lemma roundShift_127_255 : roundShift ((127 : ℚ) / 255) 1 = 1 := by
  unfold roundShift
  rw [round_eq, Int.floor_eq_iff]
  norm_num

lemma shiftInt_zero_one : shiftInt (0 : ℚ) 1 = 1 := by
  unfold shiftInt truncQ
  rw [if_pos (by norm_num)]
  rw [Int.floor_eq_iff]
  norm_num

lemma shiftInt_one_one : shiftInt (1 : ℚ) 1 = 0 := by
  unfold shiftInt truncQ
  rw [if_pos (by norm_num)]
  rw [Int.floor_eq_iff]
  norm_num

def c3frame : Grid Pixel := [[(1, 0, 0), (2, 0, 0), (3, 0, 0)]]

def c3depth : Grid ℚ := [List.replicate 3 ((127 : ℚ) / 255)]

/-- C3 counterexample: with depth 127/255 everywhere and max_shift 1, the
exact shift is 128/255 = 0.50196...; the code truncates it to 0
(astype(np.int32)) while the claim's round-to-nearest gives 1, so the
produced left image differs from the claimed one: the code leaves the
3-pixel row in place while the claim shifts it right by one, leaving
column 0 a hole. -/
theorem stereo_round_vs_trunc :
    (generateStereoCore c3frame c3depth 1).1
      ≠ claimStereoLeft c3frame c3depth 1 := by
  have hdx : dxRowAt c3depth 0 1 = [0, 0, 0] := by
    show (List.replicate 3 ((127 : ℚ) / 255)).map (fun q => shiftInt q 1)
      = [0, 0, 0]
    rw [List.map_replicate, shiftInt_127_255]
    rfl
  have hdx2 : (c3depth.getD 0 []).map (fun q => roundShift q 1) = [1, 1, 1] := by
    show (List.replicate 3 ((127 : ℚ) / 255)).map (fun q => roundShift q 1)
      = [1, 1, 1]
    rw [List.map_replicate, roundShift_127_255]
    rfl
  have hL : (generateStereoCore c3frame c3depth 1).1
      = [scatterRowL (c3frame.getD 0 []).length (c3frame.getD 0 []) [0, 0, 0]] := by
    show ((List.range 1).map fun y =>
        scatterRowL (c3frame.getD 0 []).length (c3frame.getD y [])
          (dxRowAt c3depth y 1)) = _
    rw [show List.range 1 = [0] from rfl, List.map_cons, List.map_nil, hdx]
  have hC : claimStereoLeft c3frame c3depth 1
      = [scatterRowL (c3frame.getD 0 []).length (c3frame.getD 0 []) [1, 1, 1]] := by
    show ((List.range 1).map fun y =>
        scatterRowL (c3frame.getD 0 []).length (c3frame.getD y [])
          ((c3depth.getD y []).map (fun q => roundShift q 1))) = _
    rw [show List.range 1 = [0] from rfl, List.map_cons, List.map_nil, hdx2]
  rw [hL, hC]
  decide

/-- C3 (amended): for every frame, normalized depth field of the same
dimensions, and nonnegative max_shift, the scatter computes for each
pixel the shift d = trunc((1-depth)*max_shift) (truncation toward zero,
i.e. floor for these nonnegative values — not round-to-nearest), writes
the source pixel (y,x) to column min(W-1, x+d) of the left image and to
column max(0, x-d) of the right image with later x winning, before hole
detection and inpainting: the value at any (y,c) is the source pixel of
the last x landing on c, or zero if none does. -/
theorem stereo_scatter_characterization (frame : Grid Pixel)
    (depthN : Grid ℚ) (ms : ℚ) (H W : ℕ) (hf : Rect frame H W)
    (hd : Rect depthN H W) (hms : 0 ≤ ms)
    (hdep : ∀ r ∈ depthN, ∀ q ∈ r, 0 ≤ q ∧ q ≤ 1)
    (y c : ℕ) (hy : y < H) (hc : c < W) :
    pixAt (generateStereoCore frame depthN ms).1 y c
      = (match lastHit W (fun x d => clampL W x d) (dxRowAt depthN y ms) c with
         | some x => pixAt frame y x
         | none => (0, 0, 0)) ∧
    pixAt (generateStereoCore frame depthN ms).2 y c
      = (match lastHit W (fun x d => clampR x d) (dxRowAt depthN y ms) c with
         | some x => pixAt frame y x
         | none => (0, 0, 0)) ∧
    (∀ x, x < W →
      (dxRowAt depthN y ms).getD x 0
        = truncQ ((1 - (depthN.getD y []).getD x 0) * ms) ∧
      0 ≤ (dxRowAt depthN y ms).getD x 0) := by
  obtain ⟨h1, h2⟩ := stereoCore_pixAt frame depthN ms H W hf hd hms hdep y c hy hc
  refine ⟨h1, h2, ?_⟩
  intro x hx
  have hrowlen : (depthN.getD y []).length = W := by
    obtain ⟨hdl, hdr⟩ := hd
    have hlt : y < depthN.length := by omega
    have hmem : depthN.getD y [] ∈ depthN := by
      rw [List.getD_eq_getElem _ _ hlt]
      exact List.getElem_mem _
    exact hdr _ hmem
  constructor
  · rw [dxRowAt_getD depthN y ms x (by omega)]
    rfl
  · rw [dxRowAt_getD depthN y ms x (by omega)]
    have hqmem : (depthN.getD y []).getD x 0 ∈ depthN.getD y [] := by
      rw [List.getD_eq_getElem _ _ (by omega : x < (depthN.getD y []).length)]
      exact List.getElem_mem _
    have hrowmem : depthN.getD y [] ∈ depthN := by
      obtain ⟨hdl, hdr⟩ := hd
      rw [List.getD_eq_getElem _ _ (by omega : y < depthN.length)]
      exact List.getElem_mem _
    obtain ⟨hq0, hq1⟩ := hdep _ hrowmem _ hqmem
    exact shiftInt_nonneg _ _ hq1 hms

lemma c3w_depth_ok : ∀ r ∈ ([[0, 1]] : Grid ℚ), ∀ q ∈ r, 0 ≤ q ∧ q ≤ 1 := by
  intro r hr q hq
  rw [List.mem_singleton] at hr
  subst hr
  rcases List.mem_cons.mp hq with rfl | hq2
  · norm_num
  · rw [List.mem_singleton] at hq2
    subst hq2
    norm_num

/-- C3 witness: a concrete 1x2 frame and depth field instantiating the
characterization; with depth (0, 1) and max_shift 1, pixel x = 0 shifts
by 1 to column 1, overwriting pixel x = 1's unshifted write there, and
column 0 is a hole. -/
theorem stereo_scatter_characterization_witness :
    pixAt (generateStereoCore [[(1, 0, 0), (2, 0, 0)]] [[0, 1]] 1).1 0 1
      = (2, 0, 0) ∧
    pixAt (generateStereoCore [[(1, 0, 0), (2, 0, 0)]] [[0, 1]] 1).1 0 0
      = (0, 0, 0) := by
  have hdx : dxRowAt ([[0, 1]] : Grid ℚ) 0 1 = [1, 0] := by
    show ([(0 : ℚ), 1]).map (fun q => shiftInt q 1) = [1, 0]
    rw [List.map_cons, List.map_cons, List.map_nil, shiftInt_zero_one,
      shiftInt_one_one]
  have h0 := stereo_scatter_characterization [[(1, 0, 0), (2, 0, 0)]]
    [[0, 1]] 1 1 2 (by decide) (by decide) (by norm_num) c3w_depth_ok
    0 1 (by norm_num) (by norm_num)
  have h1 := stereo_scatter_characterization [[(1, 0, 0), (2, 0, 0)]]
    [[0, 1]] 1 1 2 (by decide) (by decide) (by norm_num) c3w_depth_ok
    0 0 (by norm_num) (by norm_num)
  constructor
  · rw [h0.1, hdx]
    decide
  · rw [h1.1, hdx]
    decide

/-! ### Hole mask and inpainting (stereo.py lines 29-32)

mask = (eye.sum(axis=2) == 0); eye = cv2.inpaint(eye, mask, 3, TELEA).
cv2.inpaint is an external library routine; modelled from the spec:
inpainting replaces exactly the masked pixels, with replacement values
given by an arbitrary fill function (the spec's local inpainting). -/

/-- The hole mask of the scatter output: channel sum equal to zero. -/
def holeMaskAt (img : Grid Pixel) (y x : ℕ) : Bool :=
  pixSum (pixAt img y x) == 0

/-- Modelled from the spec: inpainting replaces each pixel whose mask is
set (channel sum zero) by a fill value derived from surrounding content,
and leaves every other pixel unchanged. -/
def inpaintWith (fill : ℕ → ℕ → Pixel) (img : Grid Pixel) : Grid Pixel :=
  (List.range img.length).map fun y =>
    (List.range (img.getD y []).length).map fun x =>
      if pixSum (pixAt img y x) = 0 then fill y x else pixAt img y x

lemma pixSum_eq_zero_iff (p : Pixel) : (pixSum p == 0) = true ↔ p = (0, 0, 0) := by
  obtain ⟨a, b, g⟩ := p
  simp [pixSum, Prod.ext_iff]
  omega

lemma pixAt_inpaintWith (fill : ℕ → ℕ → Pixel) (img : Grid Pixel) (y x : ℕ)
    (hy : y < img.length) (hx : x < (img.getD y []).length) :
    pixAt (inpaintWith fill img) y x
      = if pixSum (pixAt img y x) = 0 then fill y x else pixAt img y x := by
  show ((inpaintWith fill img).getD y []).getD x (0, 0, 0) = _
  unfold inpaintWith
  rw [getD_map_range _ _ _ hy, getD_map_range _ _ _ hx]

/-- C10: the hole mask marks a pixel exactly when its channel sum is zero,
i.e. exactly when its value is pure black — so a destination pixel whose
last scatter writer was a pure-black source pixel is indistinguishable
from an unwritten hole: it is masked and replaced by the inpainting
operator (whatever that operator computes), in both eye images; the
verbatim scattered black value never survives to the output. -/
theorem black_scatter_inpainted (frame : Grid Pixel) (depthN : Grid ℚ)
    (ms : ℚ) (fill : ℕ → ℕ → Pixel) (H W : ℕ) (hf : Rect frame H W)
    (hd : Rect depthN H W) (hms : 0 ≤ ms)
    (hdep : ∀ r ∈ depthN, ∀ q ∈ r, 0 ≤ q ∧ q ≤ 1)
    (y c : ℕ) (hy : y < H) (hc : c < W) :
    (holeMaskAt (generateStereoCore frame depthN ms).1 y c = true
      ↔ pixAt (generateStereoCore frame depthN ms).1 y c = (0, 0, 0)) ∧
    ((∃ x, lastHit W (fun x d => clampL W x d) (dxRowAt depthN y ms) c = some x ∧
        pixAt frame y x = (0, 0, 0)) →
      pixAt (generateStereoCore frame depthN ms).1 y c = (0, 0, 0) ∧
      pixAt (inpaintWith fill (generateStereoCore frame depthN ms).1) y c
        = fill y c) ∧
    ((∃ x, lastHit W (fun x d => clampR x d) (dxRowAt depthN y ms) c = some x ∧
        pixAt frame y x = (0, 0, 0)) →
      pixAt (generateStereoCore frame depthN ms).2 y c = (0, 0, 0) ∧
      pixAt (inpaintWith fill (generateStereoCore frame depthN ms).2) y c
        = fill y c) := by
  obtain ⟨hfl, hfr⟩ := hf
  have hflt : 0 < frame.length := by omega
  have hW0 : (frame.getD 0 []).length = W := by
    have h0 : frame.getD 0 [] ∈ frame := by
      rw [List.getD_eq_getElem _ _ hflt]
      exact List.getElem_mem _
    exact hfr _ h0
  have hpix := stereoCore_pixAt frame depthN ms H W ⟨hfl, hfr⟩ hd hms hdep y c hy hc
  have hyr : y < frame.length := by omega
  have hLlen : (generateStereoCore frame depthN ms).1.length = frame.length := by
    show ((List.range frame.length).map _).length = _
    rw [List.length_map, List.length_range]
  have hRlen : (generateStereoCore frame depthN ms).2.length = frame.length := by
    show ((List.range frame.length).map _).length = _
    rw [List.length_map, List.length_range]
  have hLrow : ((generateStereoCore frame depthN ms).1.getD y []).length = W := by
    show (((List.range frame.length).map fun y =>
        scatterRowL (frame.getD 0 []).length (frame.getD y [])
          (dxRowAt depthN y ms)).getD y []).length = W
    rw [getD_map_range _ _ _ hyr]
    unfold scatterRowL scatterRowP
    rw [scatterFold_length]
    unfold zeroRow
    rw [List.length_replicate]
    exact hW0
  have hRrow : ((generateStereoCore frame depthN ms).2.getD y []).length = W := by
    show (((List.range frame.length).map fun y =>
        scatterRowR (frame.getD 0 []).length (frame.getD y [])
          (dxRowAt depthN y ms)).getD y []).length = W
    rw [getD_map_range _ _ _ hyr]
    unfold scatterRowR scatterRowP
    rw [scatterFold_length]
    unfold zeroRow
    rw [List.length_replicate]
    exact hW0
  refine ⟨?_, ?_, ?_⟩
  · unfold holeMaskAt
    exact pixSum_eq_zero_iff _
  · rintro ⟨x, hlast, hblack⟩
    have hLblack : pixAt (generateStereoCore frame depthN ms).1 y c = (0, 0, 0) := by
      rw [hpix.1, hlast]
      exact hblack
    refine ⟨hLblack, ?_⟩
    rw [pixAt_inpaintWith fill _ y c (by rw [hLlen]; omega) (by rw [hLrow]; omega)]
    rw [hLblack]
    simp [pixSum]
  · rintro ⟨x, hlast, hblack⟩
    have hRblack : pixAt (generateStereoCore frame depthN ms).2 y c = (0, 0, 0) := by
      rw [hpix.2, hlast]
      exact hblack
    refine ⟨hRblack, ?_⟩
    rw [pixAt_inpaintWith fill _ y c (by rw [hRlen]; omega) (by rw [hRrow]; omega)]
    rw [hRblack]
    simp [pixSum]

lemma c10w_depth_ok : ∀ r ∈ ([[1, 1]] : Grid ℚ), ∀ q ∈ r, 0 ≤ q ∧ q ≤ 1 := by
  intro r hr q hq
  rw [List.mem_singleton] at hr
  subst hr
  rcases List.mem_cons.mp hq with rfl | hq2
  · norm_num
  · rw [List.mem_singleton] at hq2
    subst hq2
    norm_num

/-- C10 witness: a pure-black source pixel at x = 0 with zero shift wins
column 0 of the left eye, is masked, and is replaced by the (arbitrary)
fill value (9,9,9). -/
theorem black_scatter_inpainted_witness :
    pixAt (generateStereoCore [[(0, 0, 0), (7, 7, 7)]] [[1, 1]] 1).1 0 0
      = (0, 0, 0) ∧
    pixAt (inpaintWith (fun _ _ => (9, 9, 9))
      (generateStereoCore [[(0, 0, 0), (7, 7, 7)]] [[1, 1]] 1).1) 0 0
      = (9, 9, 9) := by
  have hdx : dxRowAt ([[1, 1]] : Grid ℚ) 0 1 = [0, 0] := by
    show ([(1 : ℚ), 1]).map (fun q => shiftInt q 1) = [0, 0]
    rw [List.map_cons, List.map_cons, List.map_nil, shiftInt_one_one]
  have h := black_scatter_inpainted [[(0, 0, 0), (7, 7, 7)]] [[1, 1]] 1
    (fun _ _ => (9, 9, 9)) 1 2 (by decide) (by decide) (by norm_num)
    c10w_depth_ok 0 0 (by norm_num) (by norm_num)
  exact h.2.1 ⟨0, by rw [hdx]; decide, by decide⟩

/-! ## projection.create_mapping_arrays (src/src/projection.py)

For each destination pixel (x_out, y_out) of the output_width x
output_height equirectangular grid: longitude = (x_out/output_width -
0.5)*pi, latitude = (y_out/output_height - 0.5)*(pi/2); direction
(cos(lat)sin(long), sin(lat), cos(lat)cos(long)); the pixel is valid iff
z_dir > 0 and the pinhole projection (x_dir*focal/z_dir + w/2,
-y_dir*focal/z_dir + h/2) lies in [0, w-1) x [0, h-1); invalid pixels
stay black.  focal = (w/2)/tan(radians(fov)/2).  The numeric code runs in
floating point; the embedding uses exact reals, on which the geometric
facts at the frame center need no transcendental evaluation. -/

noncomputable def longitudeAt (W x : ℕ) : ℝ :=
  ((x : ℝ) / (W : ℝ) - 1 / 2) * Real.pi

noncomputable def latitudeAt (H y : ℕ) : ℝ :=
  ((y : ℝ) / (H : ℝ) - 1 / 2) * (Real.pi / 2)

noncomputable def xDirAt (W H x y : ℕ) : ℝ :=
  Real.cos (latitudeAt H y) * Real.sin (longitudeAt W x)

noncomputable def yDirAt (H y : ℕ) : ℝ := Real.sin (latitudeAt H y)

noncomputable def zDirAt (W H x y : ℕ) : ℝ :=
  Real.cos (latitudeAt H y) * Real.cos (longitudeAt W x)

noncomputable def xFlatAt (focal : ℝ) (w W H x y : ℕ) : ℝ :=
  xDirAt W H x y * focal / zDirAt W H x y + (w : ℝ) / 2

noncomputable def yFlatAt (focal : ℝ) (h W H x y : ℕ) : ℝ :=
  -(yDirAt H y) * focal / zDirAt W H x y + (h : ℝ) / 2

/-- valid_mask[y_out, x_out] of create_mapping_arrays. -/
def validAt (focal : ℝ) (w h W H x y : ℕ) : Prop :=
  0 < zDirAt W H x y ∧
  (0 ≤ xFlatAt focal w W H x y ∧ xFlatAt focal w W H x y < (w : ℝ) - 1) ∧
  (0 ≤ yFlatAt focal h W H x y ∧ yFlatAt focal h W H x y < (h : ℝ) - 1)

/-- focal = (w/2) / tan(radians(fov)/2), as computed by
flat_to_vr180_spherical_optimized and batch_project. -/
noncomputable def focalFor (fovDeg : ℝ) (w : ℕ) : ℝ :=
  ((w : ℝ) / 2) / Real.tan ((fovDeg * Real.pi / 180) / 2)

/-- C9 counterexample: at field of view 190 (≥ 180 degrees), the center
destination pixel (x_out, y_out) = (2, 1) of a 4x2 output grid over a
10x10 source has longitude = latitude = 0, hence z_dir = 1 > 0 — z_dir
does not depend on the field of view at all, refuting the claim's premise
— and it projects to the source center (5, 5), strictly inside bounds, so
valid_mask is true there: the output is not all-black with an entirely
false mask. -/
theorem projection_center_valid_fov190 :
    validAt (focalFor 190 10) 10 10 4 2 2 1 := by
  have hxW : ((2 : ℕ) : ℝ) / ((4 : ℕ) : ℝ) = 1 / 2 := by norm_num
  have hyH : ((1 : ℕ) : ℝ) / ((2 : ℕ) : ℝ) = 1 / 2 := by norm_num
  have hlong : longitudeAt 4 2 = 0 := by
    unfold longitudeAt
    rw [hxW]
    ring
  have hlat : latitudeAt 2 1 = 0 := by
    unfold latitudeAt
    rw [hyH]
    ring
  have hz : zDirAt 4 2 2 1 = 1 := by
    unfold zDirAt
    rw [hlat, hlong]
    simp
  have hxdir : xDirAt 4 2 2 1 = 0 := by
    unfold xDirAt
    rw [hlong]
    simp
  have hydir : yDirAt 2 1 = 0 := by
    unfold yDirAt
    rw [hlat]
    simp
  have hxf : xFlatAt (focalFor 190 10) 10 4 2 2 1 = 5 := by
    unfold xFlatAt
    rw [hxdir, hz]
    norm_num
  have hyf : yFlatAt (focalFor 190 10) 10 4 2 2 1 = 5 := by
    unfold yFlatAt
    rw [hydir, hz]
    norm_num
  refine ⟨by rw [hz]; norm_num, ⟨?_, ?_⟩, ⟨?_, ?_⟩⟩
  · rw [hxf]; norm_num
  · rw [hxf]; norm_num
  · rw [hyf]; norm_num
  · rw [hyf]; norm_num

/-- C9 (amended): the mapping computation is total (no crash) for every
focal value, including the negative focal lengths produced by fields of
view above 180 degrees, but the valid mask is not entirely false: z_dir
depends only on the destination coordinates, so the center destination
pixel always has z_dir = 1 and projects to the source center (w/2, h/2),
which is in bounds whenever the source is larger than 2x2 — for every
focal. -/
theorem validMask_center_true (focal : ℝ) (w h W H x y : ℕ)
    (hw : 2 < w) (hh : 2 < h) (hW : 0 < W) (hH : 0 < H)
    (hx : 2 * x = W) (hy : 2 * y = H) :
    validAt focal w h W H x y := by
  have hW0 : ((W : ℕ) : ℝ) ≠ 0 := by
    exact_mod_cast Nat.pos_iff_ne_zero.mp hW
  have hH0 : ((H : ℕ) : ℝ) ≠ 0 := by
    exact_mod_cast Nat.pos_iff_ne_zero.mp hH
  have hxW : (x : ℝ) / (W : ℝ) = 1 / 2 := by
    rw [show ((W : ℕ) : ℝ) = 2 * (x : ℝ) from by exact_mod_cast hx.symm]
    have hx0 : (x : ℝ) ≠ 0 := by
      have : (0 : ℕ) < x := by omega
      exact_mod_cast Nat.pos_iff_ne_zero.mp this
    field_simp
    ring
  have hyH : (y : ℝ) / (H : ℝ) = 1 / 2 := by
    rw [show ((H : ℕ) : ℝ) = 2 * (y : ℝ) from by exact_mod_cast hy.symm]
    have hy0 : (y : ℝ) ≠ 0 := by
      have : (0 : ℕ) < y := by omega
      exact_mod_cast Nat.pos_iff_ne_zero.mp this
    field_simp
    ring
  have hlong : longitudeAt W x = 0 := by
    unfold longitudeAt
    rw [hxW]
    ring
  have hlat : latitudeAt H y = 0 := by
    unfold latitudeAt
    rw [hyH]
    ring
  have hz : zDirAt W H x y = 1 := by
    unfold zDirAt
    rw [hlat, hlong]
    simp
  have hxdir : xDirAt W H x y = 0 := by
    unfold xDirAt
    rw [hlong]
    simp
  have hydir : yDirAt H y = 0 := by
    unfold yDirAt
    rw [hlat]
    simp
  have hxf : xFlatAt focal w W H x y = (w : ℝ) / 2 := by
    unfold xFlatAt
    rw [hxdir, hz]
    norm_num
  have hyf : yFlatAt focal h W H x y = (h : ℝ) / 2 := by
    unfold yFlatAt
    rw [hydir, hz]
    norm_num
  have hwR : (2 : ℝ) < (w : ℝ) := by exact_mod_cast hw
  have hhR : (2 : ℝ) < (h : ℝ) := by exact_mod_cast hh
  refine ⟨by rw [hz]; norm_num, ⟨?_, ?_⟩, ⟨?_, ?_⟩⟩
  · rw [hxf]; positivity
  · rw [hxf]; linarith
  · rw [hyf]; positivity
  · rw [hyf]; linarith

/-- C9 witness: the amended statement at focal 3 on a 10x10 source with a
4x2 destination grid. -/
theorem validMask_center_true_witness : validAt 3 10 10 4 2 2 1 :=
  validMask_center_true 3 10 10 4 2 2 1 (by norm_num) (by norm_num)
    (by norm_num) (by norm_num) (by norm_num) (by norm_num)

end VRConv
